import Mathlib

/-!
Verification development for the byte-level BPE tokenizer core of
onnxruntime-extensions (CLIP tokenizer variant).

The C++ sources are shallowly embedded as executable Lean definitions:

* `scanBest`, `foldRepeats`, `mergeStep`, `bpe` embed `VocabData::bpe`
  (the greedy merge loop over a `std::list<std::pair<int,int>>`);
* `IsUnicodeSpace`, `ReplaceString`, `WhiteSpaceClean`, `IsEmptyUString`
  embed the whitespace helpers;
* `findSub`, `splitSegAux`, `SplitBySpecialTokens` embed
  `SpecialTokenMap::SplitBySpecialTokens`;
* `GetVocabIndex`, `loadMerges` embed the merges-parsing loop of
  `VocabData::Load`;
* `byteEncoderCp` embeds the byte-encoder construction of `VocabData::Load`
  (at the level of the code point looked up for each byte; the surrounding
  vocabulary lookup is abstracted as a function parameter);
* `contractionMatch`, `TryMatch`, `GetNextToken` embed
  `TokenWithRegularExp`;
* `Tokenize` embeds `KernelClipBpeTokenizer::Tokenize`.

Machine `int` values are embedded as `Int` (the only overflow-relevant
constant, `std::numeric_limits<int>::max()`, appears explicitly as
`intMax`).  Strings are embedded as lists of naturals: UTF-32 text as a
list of code points, `std::string` data as a list of bytes.  The unilib
Unicode category table and the `ToLower` table are external to the
repository and are abstracted as parameters (a `UniTab` record).  Loops
whose C++ termination argument is not structural are given explicit fuel
that is provably sufficient; all definitions are executable and reduce in
the kernel.
-/

/-! ### BPE merge algorithm (`VocabData::bpe`) -/

/-- Record stored in `bpe_map_`: `struct BpeNode { int id; int value; int length; }`.
`value` is the merge rank (lower merges first), `id` the merged token id. -/
structure BpeNode where
  id : Int
  value : Int
  length : Int
deriving DecidableEq

/-- The initial value of `minval` in `VocabData::bpe`:
`std::numeric_limits<int>::max()`. -/
def intMax : Int := 2147483647

/-- The best-pair scan of `VocabData::bpe`: walk the adjacent pairs of the
working list left to right, carrying the iterator position (as an index),
the running minimum rank `minv` and the best candidate found so far
(`pos_it`, `ori_id1`, `ori_id2`, `aim_id` in the source, bundled as
`(index, ori1, ori2, aim)`).  The update fires on `minval > value`,
i.e. on a strictly smaller rank. -/
def scanBest (M : Int → Int → Option BpeNode) :
    List (Int × Int) → Nat → Int → Option (Nat × Int × Int × Int) →
    Option (Nat × Int × Int × Int)
  | [], _, _, best => best
  | [_], _, _, best => best
  | a :: b :: rest, i, minv, best =>
    match M a.1 b.1 with
    | none => scanBest M (b :: rest) (i + 1) minv best
    | some nd =>
      if nd.value < minv then
        scanBest M (b :: rest) (i + 1) nd.value (some (i, a.1, b.1, nd.id))
      else
        scanBest M (b :: rest) (i + 1) minv best

/-- The repeat-fold inner loop of `VocabData::bpe`: after the chosen pair
has been merged, keep walking right and merge every further adjacent
occurrence of the same original id pair `(o1, o2)` into `aim`, skipping
past each freshly merged element. -/
def foldRepeats (o1 o2 aim : Int) : List (Int × Int) → List (Int × Int)
  | [] => []
  | [p] => [p]
  | (a, la) :: (b, lb) :: rest =>
    if a = o1 ∧ b = o2 then
      (aim, la + lb) :: foldRepeats o1 o2 aim rest
    else
      (a, la) :: foldRepeats o1 o2 aim ((b, lb) :: rest)

/-- One merge step of `VocabData::bpe`: erase the element at the chosen
position, overwrite its successor with the merged id and the summed
length, then run the repeat-fold loop over the remainder of the list. -/
def mergeStep (vals : List (Int × Int)) (i : Nat) (o1 o2 aim : Int) :
    List (Int × Int) :=
  match vals.drop i with
  | (_, la) :: (_, lb) :: rest =>
    vals.take i ++ (aim, la + lb) :: foldRepeats o1 o2 aim rest
  | _ => vals

/-- The outer `while (vals.size() >= 2)` loop of `VocabData::bpe`, with
explicit fuel.  Each pass removes at least one element, so fuel equal to
the initial length is sufficient (`bpeAux_scanBest_none` below proves the
result is fully merged). -/
def bpeAux (M : Int → Int → Option BpeNode) :
    Nat → List (Int × Int) → List (Int × Int)
  | 0, vals => vals
  | fuel + 1, vals =>
    if vals.length < 2 then vals
    else
      match scanBest M vals 0 intMax none with
      | none => vals
      | some (i, o1, o2, aim) => bpeAux M fuel (mergeStep vals i o1 o2 aim)

/-- `VocabData::bpe`, embedded over the merge-table lookup `M` (the
`bpe_map_.find` of the source). -/
def bpe (M : Int → Int → Option BpeNode) (vals : List (Int × Int)) :
    List (Int × Int) :=
  bpeAux M vals.length vals

/-- Sum of the tracked length components of a BPE working list. -/
def sumLen (l : List (Int × Int)) : Int :=
  l.foldr (fun p s => p.2 + s) 0

/-- The token id stored at position `j` of a BPE working list. -/
def idAt (vals : List (Int × Int)) (j : Nat) : Option Int :=
  vals[j]?.map Prod.fst

/-- The merge rank of the adjacent pair at positions `j, j+1`, when both
positions exist and the pair is present in the merge table. -/
def pairRank (M : Int → Int → Option BpeNode) (vals : List (Int × Int))
    (j : Nat) : Option Int :=
  match vals[j]?, vals[j + 1]? with
  | some a, some b => (M a.1 b.1).map BpeNode.value
  | _, _ => none

/-- Concrete merge table for the tie-break example of the specification:
rules `(A,B) -> AB` with rank 0 and `(B,C) -> BC` with rank 1, where
`A, B, C, AB, BC` are the ids `1, 2, 3, 4, 5`. -/
def Mabc : Int → Int → Option BpeNode := fun a b =>
  if a = 1 ∧ b = 2 then some ⟨4, 0, 2⟩
  else if a = 2 ∧ b = 3 then some ⟨5, 1, 2⟩
  else none

/-! ### Whitespace helpers -/

/-- `IsUnicodeSpace` from the source: the fixed CPython whitespace set. -/
def IsUnicodeSpace (c : Nat) : Bool :=
  match c with
  | 0x0009 | 0x000A | 0x000B | 0x000C | 0x000D
  | 0x001C | 0x001D | 0x001E | 0x001F | 0x0020
  | 0x0085 | 0x00A0 | 0x1680
  | 0x2000 | 0x2001 | 0x2002 | 0x2003 | 0x2004 | 0x2005 | 0x2006 | 0x2007
  | 0x2008 | 0x2009 | 0x200A | 0x2028 | 0x2029 | 0x202F | 0x205F | 0x3000 => true
  | _ => false

/-- `BothSpaces` from the source, the predicate handed to `std::unique`. -/
def BothSpaces (lhs rhs : Nat) : Bool :=
  lhs == rhs && IsUnicodeSpace lhs

/-- Scanning loop of `ReplaceString`, with fuel (the source advances the
search position past each replacement; fuel equal to the string length is
sufficient for a non-empty search pattern). -/
def replaceStringAux (search repl : List Nat) : Nat → List Nat → List Nat
  | 0, s => s
  | _ + 1, [] => []
  | fuel + 1, c :: rest =>
    if search ≠ [] ∧ search.isPrefixOf (c :: rest) then
      repl ++ replaceStringAux search repl fuel ((c :: rest).drop search.length)
    else
      c :: replaceStringAux search repl fuel rest

/-- `ReplaceString`: replace every occurrence of `search` by `repl`,
resuming the scan after each replacement. -/
def ReplaceString (s search repl : List Nat) : List Nat :=
  replaceStringAux search repl s.length s

/-- The `std::unique(BothSpaces)` pass of `WhiteSpaceClean`: drop each
element that is a repeated whitespace copy of the most recently kept
element. -/
def uniqueSpacesAux (prev : Nat) : List Nat → List Nat
  | [] => []
  | c :: rest =>
    if BothSpaces prev c then uniqueSpacesAux prev rest
    else c :: uniqueSpacesAux c rest

def uniqueSpaces : List Nat → List Nat
  | [] => []
  | c :: rest => c :: uniqueSpacesAux c rest

/-- `WhiteSpaceClean`: newline to space, then collapse runs of identical
adjacent whitespace code points. -/
def WhiteSpaceClean (s : List Nat) : List Nat :=
  uniqueSpaces (ReplaceString s [10] [32])

/-- `IsEmptyUString`: a single plain space is never empty; any other
string is empty exactly when all of its characters are Unicode
whitespace. -/
def IsEmptyUString (s : List Nat) : Bool :=
  if s = [32] then false else s.all IsUnicodeSpace

/-! ### Special-token splitter (`SpecialTokenMap::SplitBySpecialTokens`) -/

/-- Position of the first occurrence of `pat` in a string (the
`std::search` of the source; an empty pattern matches at position 0). -/
def findSub (pat : List Nat) : List Nat → Option Nat
  | [] => if pat.isPrefixOf ([] : List Nat) then some 0 else none
  | c :: rest =>
    if pat.isPrefixOf (c :: rest) then some 0
    else (findSub pat rest).map (· + 1)

/-- Inner loop of `SplitBySpecialTokens` over one untagged segment: split
out every occurrence of the token `tok` (leftmost first), tagging it with
`tokId` and leaving the surrounding text untagged.  Fuel equal to the
segment length plus one is sufficient for the non-empty tokens the source
admits. -/
def splitSegAux (tok : List Nat) (tokId : Int) :
    Nat → List Nat → List (List Nat × Int)
  | _, [] => []
  | 0, _ :: _ => []
  | fuel + 1, c :: rest =>
    match findSub tok (c :: rest) with
    | none => [(c :: rest, -1)]
    | some i =>
      (if i ≠ 0 then [((c :: rest).take i, (-1 : Int))] else []) ++
        (((c :: rest).drop i).take tok.length, tokId) ::
          splitSegAux tok tokId fuel ((c :: rest).drop (i + tok.length))

/-- One pass of the outer loop of `SplitBySpecialTokens`: tagged segments
move through unchanged, untagged segments are split on the token `t`. -/
def splitStep (t : List Nat × Int) (segs : List (List Nat × Int)) :
    List (List Nat × Int) :=
  (segs.map (fun s => if s.2 ≠ -1 then [s] else splitSegAux t.1 t.2 (s.1.length + 1) s.1)).flatten

/-- `SpecialTokenMap::SplitBySpecialTokens`: start with the whole input
untagged (tag `-1`) and resolve each registered token completely, in
registration order, before searching the next one. -/
def SplitBySpecialTokens (tokens : List (List Nat × Int)) (input : List Nat) :
    List (List Nat × Int) :=
  tokens.foldl (fun segs t => splitStep t segs) [(input, -1)]

/-! ### Merges loading (`VocabData::Load`) -/

/-- Failures of the merges-parsing loop of `VocabData::Load` (both are
`ORTX_CXX_API_THROW` with `ORT_INVALID_ARGUMENT` in the source). -/
inductive MergesError where
  | cannotParseLine : List Nat → MergesError
  | cannotFindWord : List Nat → MergesError
deriving DecidableEq

/-- Lookup in `vocab_map_` (keys are byte strings). -/
def vocabLookup : List (List Nat × Int) → List Nat → Option Int
  | [], _ => none
  | (k, v) :: rest, w => if k = w then some v else vocabLookup rest w

/-- `VocabData::GetVocabIndex`: a vocabulary lookup that throws when the
word is absent. -/
def GetVocabIndex (vocab : List (List Nat × Int)) (w : List Nat) :
    Except MergesError Int :=
  match vocabLookup vocab w with
  | some i => Except.ok i
  | none => Except.error (MergesError.cannotFindWord w)

/-- Position of the first space byte in a merges line (`line.find(' ')`). -/
def findSpace : List Nat → Option Nat
  | [] => none
  | c :: rest => if c = 32 then some 0 else (findSpace rest).map (· + 1)

/-- Byte string of the end-of-word marker `</w>`. -/
def endWordBytes : List Nat := [60, 47, 119, 62]

/-- Insertion into the association list modelling `bpe_map_`
(`bpe_map_[key] = value` overwrites any existing binding). -/
def insertPair : List ((Int × Int) × BpeNode) → (Int × Int) → BpeNode →
    List ((Int × Int) × BpeNode)
  | [], k, v => [(k, v)]
  | (k0, v0) :: rest, k, v =>
    if k0 = k then (k, v) :: rest else (k0, v0) :: insertPair rest k v

/-- The merges-parsing loop of `VocabData::Load`: strip carriage returns,
skip blank lines, skip a comment line only while the running rank counter
`index` is still zero, split on the first space, look up the ids of both
words and of their concatenation (each lookup throws when absent), and
record the merge entry at the running rank. -/
def loadMergesAux (vocab : List (List Nat × Int)) :
    List (List Nat) → Nat → List ((Int × Int) × BpeNode) →
    Except MergesError (List ((Int × Int) × BpeNode))
  | [], _, acc => Except.ok acc
  | l :: rest, index, acc =>
    let line := l.filter (fun c => c ≠ 13)
    if line = [] then loadMergesAux vocab rest index acc
    else if line.head? = some 35 ∧ index = 0 then loadMergesAux vocab rest index acc
    else
      match findSpace line with
      | none => Except.error (MergesError.cannotParseLine line)
      | some pos =>
        let w1 := line.take pos
        let w2 := line.drop (pos + 1)
        let tokenLength : Int :=
          (w1.length + w2.length : Int) -
            (if (findSub endWordBytes w2).isSome ∨ (findSub endWordBytes w1).isSome
             then 4 else 0)
        match GetVocabIndex vocab w1 with
        | Except.error e => Except.error e
        | Except.ok iw1 =>
          match GetVocabIndex vocab w2 with
          | Except.error e => Except.error e
          | Except.ok iw2 =>
            match GetVocabIndex vocab (w1 ++ w2) with
            | Except.error e => Except.error e
            | Except.ok iww =>
              loadMergesAux vocab rest (index + 1)
                (insertPair acc (iw1, iw2) ⟨iww, (index : Int), tokenLength⟩)

/-- The merges-parsing part of `VocabData::Load`, over the list of lines
of the merges text. -/
def loadMerges (vocab : List (List Nat × Int)) (lines : List (List Nat)) :
    Except MergesError (List ((Int × Int) × BpeNode)) :=
  loadMergesAux vocab lines 0 []

/-! ### Byte encoder construction (`VocabData::Load`) -/

/-- The byte-encoder construction of `VocabData::Load`, at the level of
the Unicode code point looked up for each byte.  The six loops of the
source write disjoint index ranges of `byte_encoder_`, so the table is the
function given by one branch per loop, in loop order: the loops over
33 to 126, 161 to 172 and 174 to 255 assign each such byte its own code
point; the remaining loops assign the consecutive code points of a running
counter started at 256, first to bytes 0 to 32 (code points `256 + b`),
then to bytes 127 to 160 (the counter has advanced by the 33 bytes of the
previous loop, giving `256 + 33 + (b - 127)`), and finally to byte 173
(the counter has advanced by a further 34, giving `256 + 33 + 34`). -/
def byteEncoderCp (b : Nat) : Nat :=
  if 33 ≤ b ∧ b ≤ 126 then b
  else if 161 ≤ b ∧ b ≤ 172 then b
  else if 174 ≤ b ∧ b ≤ 255 then b
  else if b ≤ 32 then 256 + b
  else if 127 ≤ b ∧ b ≤ 160 then 256 + 33 + (b - 127)
  else 256 + 33 + 34

/-- The full byte-encoder entry for byte `b`: the vocabulary id, under the
load-time lookup `vocabIdx` of the UTF-8 encoding of a code point, of the
code point assigned to `b`. -/
def byteEncoderIds (vocabIdx : Nat → Int) (b : Nat) : Int :=
  vocabIdx (byteEncoderCp b)

/-- Printable-byte predicate: the three ranges 33 to 126, 161 to 172 and
174 to 255 filled by the first three loops of the construction. -/
def printableByte (b : Nat) : Bool :=
  (33 ≤ b && b ≤ 126) || (161 ≤ b && b ≤ 172) || (174 ≤ b && b ≤ 255)

/-- The non-printable byte values, in byte order. -/
def nonPrintableBytes : List Nat :=
  (List.range 256).filter (fun b => !printableByte b)

/-- Modelled from the spec: the second block of code points as the
specification literally describes it, namely the code points 0 to 255
minus the printable block, in order; the specification assigns the
non-printable bytes to this block in byte order. -/
def specSecondBlockCps : List Nat :=
  (List.range 256).filter (fun b => !printableByte b)

/-! ### Pre-tokenizer (`TokenWithRegularExp`) -/

/-- Abstraction of the external unilib Unicode category table used by the
scanner (`category(ch) & L`, `& N`, `& Z`) and of the external `ToLower`
table used by the front end; neither table is part of this repository. -/
structure UniTab where
  isL : Nat → Bool
  isN : Nat → Bool
  isZ : Nat → Bool
  lower : Nat → Nat

/-- `TokenWithRegularExp::NotLNZ`. -/
def NotLNZ (u : UniTab) (c : Nat) : Bool :=
  !u.isL c && !u.isN c && !u.isZ c

/-- Length of the maximal prefix run satisfying `p`. -/
def runLen (p : Nat → Bool) : List Nat → Nat
  | [] => 0
  | c :: rest => if p c then runLen p rest + 1 else 0

/-- The contraction alternative of `TryMatch`, covering the pattern
alternatives `'s|'t|'re|'ve|'m|'ll|'d`: an apostrophe (code 39) followed
by one of `s`, `t`, `m`, `d` gives a two-character match; otherwise an
apostrophe followed by `re`, `ve` or `ll` gives a three-character match;
the scanner falls through to the later alternatives when neither fires. -/
def contractionMatch : List Nat → Option (List Nat × List Nat)
  | c0 :: c1 :: rest =>
    if c0 = 39 then
      if c1 = 115 ∨ c1 = 116 ∨ c1 = 109 ∨ c1 = 100 then
        some ([c0, c1], rest)
      else
        match rest with
        | c2 :: rest2 =>
          if (c1 = 114 ∧ c2 = 101) ∨ (c1 = 118 ∧ c2 = 101) ∨ (c1 = 108 ∧ c2 = 108) then
            some ([c0, c1, c2], rest2)
          else none
        | [] => none
    else none
  | _ => none

/-- A maximal run of `p` preceded by one literal space character, as in
the leading-space halves of the letter, number and punctuation branches. -/
def spaceRun (p : Nat → Bool) : List Nat → Option (List Nat × List Nat)
  | 32 :: c :: rest =>
    if p c then
      some (32 :: c :: rest.take (runLen p rest), rest.drop (runLen p rest))
    else none
  | _ => none

/-- A maximal run of `p` starting at the first character, as in the
no-leading-space halves of the letter, number and punctuation branches. -/
def plainRun (p : Nat → Bool) : List Nat → Option (List Nat × List Nat)
  | c :: rest =>
    if p c then
      some (c :: rest.take (runLen p rest), rest.drop (runLen p rest))
    else none
  | [] => none

/-- The final whitespace branch (`\s+` with a negative lookahead): a
maximal run of category-Z characters, shortened by one character when it
is longer than one character and does not reach the end of the text. -/
def whitespaceRun (u : UniTab) : List Nat → Option (List Nat × List Nat)
  | c :: rest =>
    if u.isZ c then
      if 1 < runLen u.isZ rest + 1 ∧ runLen u.isZ rest + 1 ≠ (c :: rest).length then
        some ((c :: rest).take (runLen u.isZ rest),
              (c :: rest).drop (runLen u.isZ rest))
      else
        some ((c :: rest).take (runLen u.isZ rest + 1),
              (c :: rest).drop (runLen u.isZ rest + 1))
    else none
  | [] => none

/-- `TokenWithRegularExp::TryMatch`: the ordered alternatives of the
GPT-2 pattern, contraction first, then letter, number and punctuation
runs each with an optional leading space, then whitespace. -/
def TryMatch (u : UniTab) (s : List Nat) : Option (List Nat × List Nat) :=
  match contractionMatch s with
  | some r => some r
  | none =>
    match spaceRun u.isL s with
    | some r => some r
    | none =>
      match plainRun u.isL s with
      | some r => some r
      | none =>
        match spaceRun u.isN s with
        | some r => some r
        | none =>
          match plainRun u.isN s with
          | some r => some r
          | none =>
            match spaceRun (NotLNZ u) s with
            | some r => some r
            | none =>
              match plainRun (NotLNZ u) s with
              | some r => some r
              | none => whitespaceRun u s

/-- `TokenWithRegularExp::GetNextToken`: drop one character and retry
whenever no alternative matches; stop at the end of the text. -/
def GetNextToken (u : UniTab) : List Nat → Option (List Nat × List Nat)
  | [] => none
  | c :: rest =>
    match TryMatch u (c :: rest) with
    | some r => some r
    | none => GetNextToken u rest

/-! ### Tokenizer front end (`KernelClipBpeTokenizer::Tokenize`) -/

/-- The loaded tables of `VocabData` used by `Tokenize`: the vocabulary
with the unknown-id fallback of `GetEncoding`, the byte encoder, the merge
table and the registered special tokens in registration order. -/
structure VocabModel where
  vocabMap : List (List Nat × Int)
  unkId : Int
  byteEncoder : Nat → Int
  bpeMap : Int → Int → Option BpeNode
  specialTokens : List (List Nat × Int)

/-- `VocabData::GetEncoding`: vocabulary lookup with silent fallback to
the unknown id. -/
def GetEncoding (V : VocabModel) (key : List Nat) : Int :=
  match vocabLookup V.vocabMap key with
  | some i => i
  | none => V.unkId

/-- Standard UTF-8 encoding of one code point (the
`std::string(ustring(tok))` conversion of the source). -/
def utf8EncodeChar (c : Nat) : List Nat :=
  if c < 128 then [c]
  else if c < 2048 then [192 + c / 64, 128 + c % 64]
  else if c < 65536 then [224 + c / 4096, 128 + c / 64 % 64, 128 + c % 64]
  else [240 + c / 262144, 128 + c / 4096 % 64, 128 + c / 64 % 64, 128 + c % 64]

def utf8Encode (s : List Nat) : List Nat :=
  (s.map utf8EncodeChar).flatten

/-- The byte-encoding loop of `Tokenize`: every byte of the pre-token
goes through the byte encoder, except the final byte, which is looked up
(with unknown fallback) as its one-byte string with `</w>` appended. -/
def buildByteList (V : VocabModel) : List Nat → List (Int × Int)
  | [] => []
  | [b] => [(GetEncoding V (b :: endWordBytes), 1)]
  | b :: rest => (V.byteEncoder b, 1) :: buildByteList V rest

/-- The output loop of `Tokenize`: append the merged ids to the result,
stopping once the maximum length is reached. -/
def pushCapped (res : List Int) (byteList : List (Int × Int)) (maxLength : Int) :
    List Int :=
  match byteList with
  | [] => res
  | p :: rest =>
    if (res.length : Int) ≥ maxLength then res
    else pushCapped (res ++ [p.1]) rest maxLength

/-- The per-segment scanner loop of `Tokenize`: while below the maximum
length, take the next pre-token, strip space bytes from its UTF-8 form,
build the byte-level id list, run `bpe` and append the merged ids.  Fuel
equal to the segment length plus one is sufficient since every produced
token consumes at least one character. -/
def processSegment (V : VocabModel) (u : UniTab) (maxLength : Int) :
    Nat → List Nat → List Int → List Int
  | 0, _, res => res
  | fuel + 1, text, res =>
    if (res.length : Int) < maxLength then
      match GetNextToken u text with
      | none => res
      | some (tok, restText) =>
        processSegment V u maxLength fuel restText
          (pushCapped res
            (bpe V.bpeMap
              (buildByteList V ((utf8Encode tok).filter (fun c => c ≠ 32))))
            maxLength)
    else res

/-- The segment loop of `Tokenize`: special-token segments push their id
directly; untagged segments run through the scanner loop. -/
def processSegments (V : VocabModel) (u : UniTab) (maxLength : Int) :
    List (List Nat × Int) → List Int → List Int
  | [], res => res
  | (seg, segId) :: rest, res =>
    if (res.length : Int) ≥ maxLength then res
    else if segId ≠ -1 then processSegments V u maxLength rest (res ++ [segId])
    else
      processSegments V u maxLength rest
        (processSegment V u maxLength (seg.length + 1) seg res)

/-- Byte/code-point string of `<|startoftext|>`. -/
def bosKey : List Nat :=
  [60, 124, 115, 116, 97, 114, 116, 111, 102, 116, 101, 120, 116, 124, 62]

/-- Byte/code-point string of `<|endoftext|>`. -/
def eosKey : List Nat :=
  [60, 124, 101, 110, 100, 111, 102, 116, 101, 120, 116, 124, 62]

/-- `KernelClipBpeTokenizer::Tokenize` (without the optional offset
mapping, an independent output): clean whitespace, return the empty
result on an empty-after-clean input, otherwise push the
begin-of-sequence id, lowercase, split on special tokens, process every
segment under the length cap, and finally append the end-of-sequence id
unconditionally. -/
def Tokenize (V : VocabModel) (u : UniTab) (input : List Nat) (maxLength : Int) :
    List Int :=
  let input1 := WhiteSpaceClean input
  if IsEmptyUString input1 then []
  else
    processSegments V u maxLength
      (SplitBySpecialTokens V.specialTokens (input1.map u.lower))
      [GetEncoding V bosKey] ++ [GetEncoding V eosKey]

/-! ### Concrete instances for the closed test cases -/

/-- ASCII-only instance of the external Unicode tables: lowercase letters
as category L, digits as category N, the space character as category Z,
identity lowercasing (the test inputs are already lowercase). -/
def uniAscii : UniTab where
  isL := fun c => 97 ≤ c && c ≤ 122
  isN := fun c => 48 ≤ c && c ≤ 57
  isZ := fun c => c == 32
  lower := fun c => c

/-- Concrete loaded tables for the front-end test cases: BOS, EOS and the
end-of-word forms of the letters a to e; no merge rules. -/
def Vclip : VocabModel where
  vocabMap :=
    [(bosKey, 0), (eosKey, 1),
     ([97] ++ endWordBytes, 2), ([98] ++ endWordBytes, 3),
     ([99] ++ endWordBytes, 4), ([100] ++ endWordBytes, 5),
     ([101] ++ endWordBytes, 6)]
  unkId := 99
  byteEncoder := fun _ => 99
  bpeMap := fun _ _ => none
  specialTokens := [(bosKey, 0), (eosKey, 1)]

/-- The input string `"a b c d e"`, which pre-tokenizes into five
sub-tokens. -/
def inputFive : List Nat := [97, 32, 98, 32, 99, 32, 100, 32, 101]

/-- Code points of the special token `<sep>`. -/
def sepTok : List Nat := [60, 115, 101, 112, 62]

/-- Vocabulary for the missing-concatenation test: the words `a` and `b`
are present but their concatenation `ab` is not. -/
def Vab : List (List Nat × Int) := [([97], 0), ([98], 1)]

/-- Vocabulary for the comment-line tests: the words of the lines `a b`
and `# c d` (the latter splits at its first space into `#` and `c d`)
and their concatenations are all present. -/
def Vhash : List (List Nat × Int) :=
  [([97], 0), ([98], 1), ([97, 98], 2), ([35], 3), ([99, 32, 100], 4),
   ([35, 99, 32, 100], 5)]

/-! ### Lemmas about the best-pair scan -/

/-- Unfolding equation for `scanBest` on a list with at least two elements. -/
theorem scanBest_cons₂ (M : Int → Int → Option BpeNode) (a b : Int × Int)
    (rest : List (Int × Int)) (i : Nat) (minv : Int)
    (best : Option (Nat × Int × Int × Int)) :
    scanBest M (a :: b :: rest) i minv best =
      match M a.1 b.1 with
      | none => scanBest M (b :: rest) (i + 1) minv best
      | some nd =>
        if nd.value < minv then
          scanBest M (b :: rest) (i + 1) nd.value (some (i, a.1, b.1, nd.id))
        else
          scanBest M (b :: rest) (i + 1) minv best := rfl

/-- A pair index whose successor position is out of range has no rank. -/
theorem pairRank_eq_none (M : Int → Int → Option BpeNode)
    (vals : List (Int × Int)) (j : Nat) (h : vals.length ≤ j + 1) :
    pairRank M vals j = none := by
  have h2 : vals[j + 1]? = none := List.getElem?_eq_none h
  cases h1 : vals[j]? <;> simp [pairRank, h1, h2]

/-- Invariant-carrying specification of the best-pair scan: if the scan
over the suffix `vals.drop i` returns a candidate, that candidate is an
adjacent pair of `vals` that is in the merge table, its rank is minimal
among all adjacent pairs of `vals` that are in the table, and it is
strictly below the rank of every such pair to its left. -/
theorem scanBest_go (M : Int → Int → Option BpeNode) (vals : List (Int × Int)) :
    ∀ (s : List (Int × Int)) (i : Nat) (minv : Int)
      (best : Option (Nat × Int × Int × Int)),
    vals.drop i = s →
    (∀ j, j < i → ∀ r, pairRank M vals j = some r → minv ≤ r) →
    (∀ jb o1 o2 aim, best = some (jb, o1, o2, aim) →
      jb < i ∧ idAt vals jb = some o1 ∧ idAt vals (jb + 1) = some o2 ∧
      (∃ nd, M o1 o2 = some nd ∧ nd.id = aim ∧ nd.value = minv) ∧
      (∀ j, j < jb → ∀ r, pairRank M vals j = some r → minv < r)) →
    ∀ jb o1 o2 aim, scanBest M s i minv best = some (jb, o1, o2, aim) →
    idAt vals jb = some o1 ∧ idAt vals (jb + 1) = some o2 ∧
    ∃ nd, M o1 o2 = some nd ∧ nd.id = aim ∧
      (∀ j r, pairRank M vals j = some r → nd.value ≤ r) ∧
      (∀ j, j < jb → ∀ r, pairRank M vals j = some r → nd.value < r) := by
  intro s
  induction s with
  | nil =>
    intro i minv best hdrop h1 h2 jb o1 o2 aim hscan
    obtain ⟨hlt, hid1, hid2, ⟨nd, hnd, hndid, hndval⟩, hstrict⟩ :=
      h2 jb o1 o2 aim hscan
    refine ⟨hid1, hid2, nd, hnd, hndid, ?_, ?_⟩
    · intro j r hjr
      by_cases hj : j < i
      · exact hndval ▸ h1 j hj r hjr
      · have hlen : vals.length ≤ i := List.drop_eq_nil_iff.1 hdrop
        rw [pairRank_eq_none M vals j (by omega)] at hjr
        exact absurd hjr (by simp)
    · intro j hj r hjr
      exact hndval ▸ hstrict j hj r hjr
  | cons a tail ih =>
    cases tail with
    | nil =>
      intro i minv best hdrop h1 h2 jb o1 o2 aim hscan
      obtain ⟨hlt, hid1, hid2, ⟨nd, hnd, hndid, hndval⟩, hstrict⟩ :=
        h2 jb o1 o2 aim hscan
      refine ⟨hid1, hid2, nd, hnd, hndid, ?_, ?_⟩
      · intro j r hjr
        by_cases hj : j < i
        · exact hndval ▸ h1 j hj r hjr
        · have hlen : (vals.drop i).length = 1 := by rw [hdrop]; rfl
          rw [List.length_drop] at hlen
          rw [pairRank_eq_none M vals j (by omega)] at hjr
          exact absurd hjr (by simp)
      · intro j hj r hjr
        exact hndval ▸ hstrict j hj r hjr
    | cons b rest =>
      intro i minv best hdrop h1 h2 jb o1 o2 aim hscan
      have hga : vals[i]? = some a := by
        have h := List.getElem?_drop vals i 0
        rw [hdrop] at h
        simpa using h.symm
      have hgb : vals[i + 1]? = some b := by
        have h := List.getElem?_drop vals i 1
        rw [hdrop] at h
        simpa using h.symm
      have hdrop' : vals.drop (i + 1) = b :: rest := by
        rw [← List.tail_drop, hdrop]
        rfl
      have hpri : pairRank M vals i = (M a.1 b.1).map BpeNode.value := by
        simp [pairRank, hga, hgb]
      rw [scanBest_cons₂] at hscan
      cases hM : M a.1 b.1 with
      | none =>
        simp only [hM] at hscan
        refine ih (i + 1) minv best hdrop' ?_ ?_ jb o1 o2 aim hscan
        · intro j hj r hjr
          rcases Nat.lt_succ_iff_lt_or_eq.1 hj with hj' | rfl
          · exact h1 j hj' r hjr
          · rw [hpri, hM] at hjr
            exact absurd hjr (by simp)
        · intro jb' o1' o2' aim' hb
          obtain ⟨h2a, h2rest⟩ := h2 jb' o1' o2' aim' hb
          exact ⟨Nat.lt_succ_of_lt h2a, h2rest⟩
      | some nd =>
        simp only [hM] at hscan
        by_cases hlt : nd.value < minv
        · rw [if_pos hlt] at hscan
          refine ih (i + 1) nd.value (some (i, a.1, b.1, nd.id)) hdrop' ?_ ?_
            jb o1 o2 aim hscan
          · intro j hj r hjr
            rcases Nat.lt_succ_iff_lt_or_eq.1 hj with hj' | rfl
            · exact le_of_lt (lt_of_lt_of_le hlt (h1 j hj' r hjr))
            · rw [hpri, hM] at hjr
              simp only [Option.map_some', Option.some.injEq] at hjr
              omega
          · intro jb' o1' o2' aim' hb
            simp only [Option.some.injEq, Prod.mk.injEq] at hb
            obtain ⟨rfl, rfl, rfl, rfl⟩ := hb
            refine ⟨Nat.lt_succ_self i, by simp [idAt, hga], by simp [idAt, hgb],
              ⟨nd, hM, rfl, rfl⟩, ?_⟩
            intro j hj r hjr
            exact lt_of_lt_of_le hlt (h1 j hj r hjr)
        · rw [if_neg hlt] at hscan
          refine ih (i + 1) minv best hdrop' ?_ ?_ jb o1 o2 aim hscan
          · intro j hj r hjr
            rcases Nat.lt_succ_iff_lt_or_eq.1 hj with hj' | rfl
            · exact h1 j hj' r hjr
            · rw [hpri, hM] at hjr
              simp only [Option.map_some', Option.some.injEq] at hjr
              omega
          · intro jb' o1' o2' aim' hb
            obtain ⟨h2a, h2rest⟩ := h2 jb' o1' o2' aim' hb
            exact ⟨Nat.lt_succ_of_lt h2a, h2rest⟩

/-- The candidate returned by the scan points at an adjacent pair, i.e.
leaves room for two elements. -/
theorem scanBest_bound (M : Int → Int → Option BpeNode) :
    ∀ (s : List (Int × Int)) (i : Nat) (minv : Int)
      (best : Option (Nat × Int × Int × Int)),
    (∀ jb o1 o2 aim, best = some (jb, o1, o2, aim) → jb + 2 ≤ i + s.length) →
    ∀ jb o1 o2 aim, scanBest M s i minv best = some (jb, o1, o2, aim) →
    jb + 2 ≤ i + s.length := by
  intro s
  induction s with
  | nil =>
    intro i minv best hb jb o1 o2 aim hscan
    exact hb jb o1 o2 aim hscan
  | cons a tail ih =>
    cases tail with
    | nil =>
      intro i minv best hb jb o1 o2 aim hscan
      exact hb jb o1 o2 aim hscan
    | cons b rest =>
      intro i minv best hb jb o1 o2 aim hscan
      rw [scanBest_cons₂] at hscan
      cases hM : M a.1 b.1 with
      | none =>
        simp only [hM] at hscan
        have := ih (i + 1) minv best
          (fun jb' o1' o2' aim' hb' => by
            have := hb jb' o1' o2' aim' hb'
            simp only [List.length_cons] at this ⊢
            omega)
          jb o1 o2 aim hscan
        simp only [List.length_cons] at this ⊢
        omega
      | some nd =>
        simp only [hM] at hscan
        by_cases hlt : nd.value < minv
        · rw [if_pos hlt] at hscan
          have := ih (i + 1) nd.value (some (i, a.1, b.1, nd.id))
            (fun jb' o1' o2' aim' hb' => by
              simp only [Option.some.injEq, Prod.mk.injEq] at hb'
              obtain ⟨rfl, -, -, -⟩ := hb'
              simp only [List.length_cons]
              omega)
            jb o1 o2 aim hscan
          simp only [List.length_cons] at this ⊢
          omega
        · rw [if_neg hlt] at hscan
          have := ih (i + 1) minv best
            (fun jb' o1' o2' aim' hb' => by
              have := hb jb' o1' o2' aim' hb'
              simp only [List.length_cons] at this ⊢
              omega)
            jb o1 o2 aim hscan
          simp only [List.length_cons] at this ⊢
          omega

/-- The repeat-fold loop never lengthens the list. -/
theorem foldRepeats_length_le (o1 o2 aim : Int) :
    ∀ l : List (Int × Int), (foldRepeats o1 o2 aim l).length ≤ l.length
  | [] => le_refl _
  | [p] => le_refl _
  | (a, la) :: (b, lb) :: rest => by
    rw [foldRepeats]
    by_cases h : a = o1 ∧ b = o2
    · rw [if_pos h]
      have := foldRepeats_length_le o1 o2 aim rest
      simp only [List.length_cons]
      omega
    · rw [if_neg h]
      have := foldRepeats_length_le o1 o2 aim ((b, lb) :: rest)
      simp only [List.length_cons] at this ⊢
      omega

/-- The repeat-fold loop preserves the sum of the length components. -/
theorem foldRepeats_sumLen (o1 o2 aim : Int) :
    ∀ l : List (Int × Int), sumLen (foldRepeats o1 o2 aim l) = sumLen l
  | [] => rfl
  | [_] => rfl
  | (a, la) :: (b, lb) :: rest => by
    rw [foldRepeats]
    by_cases h : a = o1 ∧ b = o2
    · rw [if_pos h]
      have := foldRepeats_sumLen o1 o2 aim rest
      simp only [sumLen, List.foldr_cons] at this ⊢
      omega
    · rw [if_neg h]
      have := foldRepeats_sumLen o1 o2 aim ((b, lb) :: rest)
      simp only [sumLen, List.foldr_cons] at this ⊢
      omega

/-- Sums of length components add over list concatenation. -/
theorem sumLen_append (l₁ l₂ : List (Int × Int)) :
    sumLen (l₁ ++ l₂) = sumLen l₁ + sumLen l₂ := by
  induction l₁ with
  | nil => simp [sumLen]
  | cons p rest ih =>
    simp only [sumLen, List.cons_append, List.foldr_cons] at ih ⊢
    omega

/-- One merge step preserves the sum of the length components: the merged
element carries the sum of the two lengths it replaces. -/
theorem mergeStep_sumLen (vals : List (Int × Int)) (i : Nat)
    (o1 o2 aim : Int) :
    sumLen (mergeStep vals i o1 o2 aim) = sumLen vals := by
  rw [mergeStep]
  cases hd : vals.drop i with
  | nil => rfl
  | cons p tl =>
    cases tl with
    | nil => rfl
    | cons q rest =>
      obtain ⟨pa, la⟩ := p
      obtain ⟨qa, lb⟩ := q
      have hsplit : vals = vals.take i ++ vals.drop i := (List.take_append_drop i vals).symm
      have hfr := foldRepeats_sumLen o1 o2 aim rest
      calc sumLen (vals.take i ++ (aim, la + lb) :: foldRepeats o1 o2 aim rest)
          = sumLen (vals.take i) + sumLen ((aim, la + lb) :: foldRepeats o1 o2 aim rest) :=
            sumLen_append _ _
        _ = sumLen (vals.take i) + ((la + lb) + sumLen (foldRepeats o1 o2 aim rest)) := rfl
        _ = sumLen (vals.take i) + ((la + lb) + sumLen rest) := by rw [hfr]
        _ = sumLen (vals.take i) + sumLen ((pa, la) :: (qa, lb) :: rest) := by
            simp only [sumLen, List.foldr_cons]
            omega
        _ = sumLen (vals.take i ++ vals.drop i) := by rw [hd, sumLen_append]
        _ = sumLen vals := by rw [← hsplit]

/-- When the chosen index leaves room for an adjacent pair, one merge step
strictly shortens the list. -/
theorem mergeStep_length_lt (vals : List (Int × Int)) (i : Nat)
    (o1 o2 aim : Int) (h : i + 2 ≤ vals.length) :
    (mergeStep vals i o1 o2 aim).length < vals.length := by
  rw [mergeStep]
  cases hd : vals.drop i with
  | nil =>
    have := List.drop_eq_nil_iff.1 hd
    omega
  | cons p tl =>
    cases tl with
    | nil =>
      have : (vals.drop i).length = 1 := by rw [hd]; rfl
      rw [List.length_drop] at this
      omega
    | cons q rest =>
      obtain ⟨pa, la⟩ := p
      obtain ⟨qa, lb⟩ := q
      have hfr := foldRepeats_length_le o1 o2 aim rest
      have hlr : (vals.drop i).length = rest.length + 2 := by rw [hd]; simp
      rw [List.length_drop] at hlr
      have htk : (vals.take i).length = i := by
        rw [List.length_take]
        omega
      simp only [List.length_append, List.length_cons, htk]
      omega

/-- Any list of length below two is rejected by the scan when started with
no candidate. -/
theorem scanBest_short (M : Int → Int → Option BpeNode)
    (vals : List (Int × Int)) (h : vals.length < 2) :
    scanBest M vals 0 intMax none = none := by
  match vals, h with
  | [], _ => rfl
  | [_], _ => rfl

/-- With fuel at least the length of the list, the outer loop runs to
completion: the resulting list admits no further merge. -/
theorem bpeAux_scanBest_none (M : Int → Int → Option BpeNode) :
    ∀ (fuel : Nat) (vals : List (Int × Int)), vals.length ≤ fuel →
    scanBest M (bpeAux M fuel vals) 0 intMax none = none := by
  intro fuel
  induction fuel with
  | zero =>
    intro vals hlen
    have : vals = [] := List.eq_nil_of_length_eq_zero (Nat.le_zero.1 hlen)
    rw [bpeAux, this]
    rfl
  | succ fuel ih =>
    intro vals hlen
    rw [bpeAux]
    by_cases hshort : vals.length < 2
    · rw [if_pos hshort]
      exact scanBest_short M vals hshort
    · rw [if_neg hshort]
      cases hscan : scanBest M vals 0 intMax none with
      | none => exact hscan
      | some res =>
        obtain ⟨i, o1, o2, aim⟩ := res
        have hbnd : i + 2 ≤ 0 + vals.length :=
          scanBest_bound M vals 0 intMax none (by intro _ _ _ _ h; cases h)
            i o1 o2 aim hscan
        have hlt : (mergeStep vals i o1 o2 aim).length < vals.length :=
          mergeStep_length_lt vals i o1 o2 aim (by omega)
        exact ih (mergeStep vals i o1 o2 aim) (by omega)

/-- A list on which the scan finds nothing is a fixed point of `bpe`. -/
theorem bpe_fixed_of_scan_none (M : Int → Int → Option BpeNode)
    (vals : List (Int × Int)) (h : scanBest M vals 0 intMax none = none) :
    bpe M vals = vals := by
  rw [bpe]
  cases hlen : vals.length with
  | zero => rfl
  | succ n =>
    rw [bpeAux]
    by_cases hshort : vals.length < 2
    · rw [if_pos hshort]
    · rw [if_neg hshort, h]

/-- The outer loop preserves the sum of the length components. -/
theorem bpeAux_sumLen (M : Int → Int → Option BpeNode) :
    ∀ (fuel : Nat) (vals : List (Int × Int)),
    sumLen (bpeAux M fuel vals) = sumLen vals := by
  intro fuel
  induction fuel with
  | zero => intro vals; rfl
  | succ fuel ih =>
    intro vals
    rw [bpeAux]
    by_cases hshort : vals.length < 2
    · rw [if_pos hshort]
    · rw [if_neg hshort]
      cases hscan : scanBest M vals 0 intMax none with
      | none => rfl
      | some res =>
        obtain ⟨i, o1, o2, aim⟩ := res
        rw [ih (mergeStep vals i o1 o2 aim), mergeStep_sumLen]

/-! ### Extension lemmas for the front-end loops -/

/-- The output loop only ever appends to the result. -/
theorem pushCapped_extend (res : List Int) (bl : List (Int × Int)) (m : Int) :
    ∃ ext, pushCapped res bl m = res ++ ext := by
  induction bl generalizing res with
  | nil => exact ⟨[], by simp [pushCapped]⟩
  | cons p rest ih =>
    rw [pushCapped]
    by_cases h : (res.length : Int) ≥ m
    · rw [if_pos h]
      exact ⟨[], by simp⟩
    · rw [if_neg h]
      obtain ⟨ext, hext⟩ := ih (res ++ [p.1])
      exact ⟨[p.1] ++ ext, by rw [hext, List.append_assoc]⟩

/-- The scanner loop only ever appends to the result. -/
theorem processSegment_extend (V : VocabModel) (u : UniTab) (m : Int) :
    ∀ (fuel : Nat) (text : List Nat) (res : List Int),
    ∃ ext, processSegment V u m fuel text res = res ++ ext := by
  intro fuel
  induction fuel with
  | zero =>
    intro text res
    exact ⟨[], by simp [processSegment]⟩
  | succ fuel ih =>
    intro text res
    rw [processSegment]
    by_cases h : (res.length : Int) < m
    · rw [if_pos h]
      cases hn : GetNextToken u text with
      | none => exact ⟨[], by simp⟩
      | some r =>
        obtain ⟨tok, restText⟩ := r
        obtain ⟨e1, he1⟩ := pushCapped_extend res
          (bpe V.bpeMap (buildByteList V ((utf8Encode tok).filter (fun c => c ≠ 32)))) m
        obtain ⟨e2, he2⟩ := ih restText (pushCapped res
          (bpe V.bpeMap (buildByteList V ((utf8Encode tok).filter (fun c => c ≠ 32)))) m)
        refine ⟨e1 ++ e2, ?_⟩
        show processSegment V u m fuel restText
          (pushCapped res
            (bpe V.bpeMap (buildByteList V ((utf8Encode tok).filter (fun c => c ≠ 32))))
            m) = res ++ (e1 ++ e2)
        rw [he2, he1, List.append_assoc]
    · rw [if_neg h]
      exact ⟨[], by simp⟩

/-- The segment loop only ever appends to the result. -/
theorem processSegments_extend (V : VocabModel) (u : UniTab) (m : Int) :
    ∀ (segs : List (List Nat × Int)) (res : List Int),
    ∃ ext, processSegments V u m segs res = res ++ ext := by
  intro segs
  induction segs with
  | nil =>
    intro res
    exact ⟨[], by simp [processSegments]⟩
  | cons s rest ih =>
    intro res
    obtain ⟨seg, segId⟩ := s
    rw [processSegments]
    by_cases h : (res.length : Int) ≥ m
    · rw [if_pos h]
      exact ⟨[], by simp⟩
    · rw [if_neg h]
      by_cases hid : segId ≠ -1
      · rw [if_pos hid]
        obtain ⟨e, he⟩ := ih (res ++ [segId])
        exact ⟨[segId] ++ e, by rw [he, List.append_assoc]⟩
      · rw [if_neg hid]
        obtain ⟨e1, he1⟩ := processSegment_extend V u m (seg.length + 1) seg res
        obtain ⟨e2, he2⟩ := ih (processSegment V u m (seg.length + 1) seg res)
        exact ⟨e1 ++ e2, by rw [he2, he1, List.append_assoc]⟩

/-! ### The claims -/

/-- Claim C1: every iteration of the outer BPE loop merges the adjacent
pair with the lowest merge-table rank among all adjacent pairs of the
current sequence, the leftmost occurrence winning ties because the
left-to-right scan updates only on a strictly smaller rank; in
particular, with rules (A,B) at rank 0 and (B,C) at rank 1 over the
sequence [A,B,C], the rank-0 merge applies first, yielding [AB,C]. -/
theorem claim_C1 (M : Int → Int → Option BpeNode) (vals : List (Int × Int))
    (i : Nat) (o1 o2 aim : Int)
    (h : scanBest M vals 0 intMax none = some (i, o1, o2, aim)) :
    (idAt vals i = some o1 ∧ idAt vals (i + 1) = some o2 ∧
      ∃ nd, M o1 o2 = some nd ∧ nd.id = aim ∧
        (∀ j r, pairRank M vals j = some r → nd.value ≤ r) ∧
        (∀ j, j < i → ∀ r, pairRank M vals j = some r → nd.value < r)) ∧
    bpe Mabc [(1, 1), (2, 1), (3, 1)] = [(4, 2), (3, 1)] := by
  constructor
  · exact scanBest_go M vals vals 0 intMax none rfl
      (fun j hj => (Nat.not_lt_zero j hj).elim)
      (fun jb o1' o2' aim' hb => Option.noConfusion hb)
      i o1 o2 aim h
  · rfl

/-- Witness for C1 at the tie-break instance: the scan over [A,B,C] with
the two rules of `Mabc` selects the leftmost rank-0 pair at index 0. -/
theorem claim_C1_witness :
    scanBest Mabc [(1, 1), (2, 1), (3, 1)] 0 intMax none = some (0, 1, 2, 4) ∧
    ((idAt [(1, 1), (2, 1), (3, 1)] 0 = some 1 ∧
      idAt [(1, 1), (2, 1), (3, 1)] (0 + 1) = some 2 ∧
      ∃ nd, Mabc 1 2 = some nd ∧ nd.id = 4 ∧
        (∀ j r, pairRank Mabc [(1, 1), (2, 1), (3, 1)] j = some r → nd.value ≤ r) ∧
        (∀ j, j < 0 → ∀ r, pairRank Mabc [(1, 1), (2, 1), (3, 1)] j = some r →
          nd.value < r)) ∧
     bpe Mabc [(1, 1), (2, 1), (3, 1)] = [(4, 2), (3, 1)]) :=
  ⟨by decide, claim_C1 Mabc [(1, 1), (2, 1), (3, 1)] 0 1 2 4 (by decide)⟩

/-- Claim C9: a sequence on which the scan finds no mergeable adjacent
pair is left unchanged by `bpe`, and therefore applying `bpe` twice gives
the same result as applying it once. -/
theorem claim_C9 (M : Int → Int → Option BpeNode) (vals : List (Int × Int)) :
    (scanBest M vals 0 intMax none = none → bpe M vals = vals) ∧
    bpe M (bpe M vals) = bpe M vals := by
  refine ⟨bpe_fixed_of_scan_none M vals, ?_⟩
  exact bpe_fixed_of_scan_none M (bpe M vals)
    (bpeAux_scanBest_none M vals.length vals (le_refl _))

/-- Witness for C9 on a concrete fully merged sequence. -/
theorem claim_C9_witness :
    scanBest Mabc [(4, 2), (3, 1)] 0 intMax none = none ∧
    bpe Mabc [(4, 2), (3, 1)] = [(4, 2), (3, 1)] :=
  ⟨by decide, (claim_C9 Mabc [(4, 2), (3, 1)]).1 (by decide)⟩

/-- Claim C10: a merge step replaces two adjacent entries by one entry
carrying the sum of their lengths, and the whole BPE loop preserves the
sum of the tracked length components. -/
theorem claim_C10 (M : Int → Int → Option BpeNode) (vals : List (Int × Int))
    (i : Nat) (o1 o2 aim : Int) :
    sumLen (mergeStep vals i o1 o2 aim) = sumLen vals ∧
    sumLen (bpe M vals) = sumLen vals :=
  ⟨mergeStep_sumLen vals i o1 o2 aim, bpeAux_sumLen M vals.length vals⟩

/-- Claim C5: with special tokens registered in order `<sep>`,
`<sep><sep>` and input `<sep><sep>`, the splitter produces two adjacent
segments tagged with the id of `<sep>` rather than one `<sep><sep>`
segment, because each registered token is fully resolved over the
untagged segments before the next one is searched. -/
theorem claim_C5 :
    SplitBySpecialTokens [(sepTok, 10), (sepTok ++ sepTok, 11)]
      (sepTok ++ sepTok) = [(sepTok, 10), (sepTok, 10)] := rfl

/-- Counterexample to C8: the claim asserts that no input makes the
scanner emit the two-character match for an apostrophe followed by `t`
through the contraction alternative, but the input consisting of exactly
those two characters (codes 39, 116) does. -/
theorem claim_C8_counterexample :
    contractionMatch [39, 116] = some ([39, 116], []) ∧
    GetNextToken uniAscii [39, 116] = some ([39, 116], []) :=
  ⟨rfl, rfl⟩

/-- Claim C8, amended: the contraction alternative recognizes exactly
the four suffixes s, t, m, d as two-character forms and re, ve, ll as
three-character forms; the standalone form with `t` is reachable, the
scanner emitting it on the input consisting of an apostrophe followed by
`t`. -/
theorem claim_C8 :
    (∀ c rest, (c = 115 ∨ c = 116 ∨ c = 109 ∨ c = 100) →
      contractionMatch (39 :: c :: rest) = some ([39, c], rest)) ∧
    (∀ c1 c2 rest,
      ((c1 = 114 ∧ c2 = 101) ∨ (c1 = 118 ∧ c2 = 101) ∨ (c1 = 108 ∧ c2 = 108)) →
      contractionMatch (39 :: c1 :: c2 :: rest) = some ([39, c1, c2], rest)) ∧
    (∀ s m rest, contractionMatch s = some (m, rest) →
      (∃ c r, s = 39 :: c :: r ∧ (c = 115 ∨ c = 116 ∨ c = 109 ∨ c = 100) ∧
        m = [39, c] ∧ rest = r) ∨
      (∃ c1 c2 r, s = 39 :: c1 :: c2 :: r ∧
        ((c1 = 114 ∧ c2 = 101) ∨ (c1 = 118 ∧ c2 = 101) ∨ (c1 = 108 ∧ c2 = 108)) ∧
        m = [39, c1, c2] ∧ rest = r)) ∧
    GetNextToken uniAscii [39, 116] = some ([39, 116], []) := by
  refine ⟨?_, ?_, ?_, rfl⟩
  · intro c rest h
    rcases h with rfl | rfl | rfl | rfl <;> rfl
  · intro c1 c2 rest h
    rcases h with ⟨rfl, rfl⟩ | ⟨rfl, rfl⟩ | ⟨rfl, rfl⟩ <;> rfl
  · intro s m rest h
    rw [contractionMatch.eq_def] at h
    split at h
    · next c0 c1 r =>
      by_cases h0 : c0 = 39
      · rw [if_pos h0] at h
        subst h0
        by_cases h1 : c1 = 115 ∨ c1 = 116 ∨ c1 = 109 ∨ c1 = 100
        · rw [if_pos h1] at h
          injection h with h
          injection h with hm hr
          exact Or.inl ⟨c1, r, rfl, h1, hm.symm, hr.symm⟩
        · rw [if_neg h1] at h
          split at h
          · next c2 r2 =>
            by_cases h2 : (c1 = 114 ∧ c2 = 101) ∨ (c1 = 118 ∧ c2 = 101) ∨
                (c1 = 108 ∧ c2 = 108)
            · rw [if_pos h2] at h
              injection h with h
              injection h with hm hr
              exact Or.inr ⟨c1, c2, r2, rfl, h2, hm.symm, hr.symm⟩
            · rw [if_neg h2] at h
              exact Option.noConfusion h
          · exact Option.noConfusion h
      · rw [if_neg h0] at h
        exact Option.noConfusion h
    · exact Option.noConfusion h

/-- Witness for the amended C8 at the suffix `s`. -/
theorem claim_C8_witness :
    ((115 : Nat) = 115 ∨ (115 : Nat) = 116 ∨ (115 : Nat) = 109 ∨ (115 : Nat) = 100) ∧
    contractionMatch (39 :: 115 :: [97]) = some ([39, 115], [97]) :=
  ⟨Or.inl rfl, claim_C8.1 115 [97] (Or.inl rfl)⟩

/-- Counterexample to C3: the code assigns byte 0 (a non-printable byte)
the code point 256, not the first element of the claimed second block of
code points 0 to 255 minus the printable ranges (whose first element
is 0). -/
theorem claim_C3_counterexample :
    byteEncoderCp 0 = 256 ∧ specSecondBlockCps.get! 0 = 0 ∧
    byteEncoderCp 0 ≠ specSecondBlockCps.get! 0 := by
  refine ⟨rfl, ?_, ?_⟩ <;> decide

set_option maxRecDepth 4096 in
/-- Claim C3, amended: each printable byte is assigned its own code
point, and the 68 non-printable bytes are assigned, in byte order, the
consecutive fresh code points 256 to 323 (one per element of 0 to 255
minus the printable block), not code points drawn from 0 to 255. -/
theorem claim_C3 :
    (∀ b < 256, printableByte b = true → byteEncoderCp b = b) ∧
    (∀ k < 68, byteEncoderCp (nonPrintableBytes.get! k) = 256 + k) := by
  constructor
  · decide
  · decide

set_option maxRecDepth 4096 in
/-- Witness for the amended C3 at byte 33 and at the first non-printable
byte. -/
theorem claim_C3_witness :
    ((33 : Nat) < 256 ∧ printableByte 33 = true ∧ byteEncoderCp 33 = 33) ∧
    ((0 : Nat) < 68 ∧ byteEncoderCp (nonPrintableBytes.get! 0) = 256 + 0) :=
  ⟨⟨by decide, by decide, claim_C3.1 33 (by decide) (by decide)⟩,
   ⟨by decide, claim_C3.2 0 (by decide)⟩⟩

/-- Counterexample to C4: the claim asserts the EOS id is the last
element of the result for every input, but an input consisting of a
single tab character is treated as empty after whitespace cleaning and
yields an empty result with no EOS at all. -/
theorem claim_C4_counterexample :
    (Tokenize Vclip uniAscii [9] 3).getLast? ≠ some (GetEncoding Vclip eosKey) := by
  decide

/-- Claim C4, amended: for every input that is not treated as empty after
whitespace cleaning, the EOS id is appended after the truncation cap and
is the last element of the result; in particular, with a maximum length
of 3 and an input producing five sub-tokens, the output is exactly
BOS, the first two sub-tokens, then EOS, one element beyond the cap. -/
theorem claim_C4 :
    (∀ (V : VocabModel) (u : UniTab) (input : List Nat) (maxLength : Int),
      IsEmptyUString (WhiteSpaceClean input) = false →
      (Tokenize V u input maxLength).getLast? = some (GetEncoding V eosKey)) ∧
    Tokenize Vclip uniAscii inputFive 3 = [0, 2, 3, 1] ∧
    (Tokenize Vclip uniAscii inputFive 3).length = 3 + 1 := by
  refine ⟨?_, rfl, rfl⟩
  intro V u input maxLength h
  simp only [Tokenize]
  rw [h]
  simp only [Bool.false_eq_true, if_false]
  exact List.getLast?_concat _

/-- Witness for the amended C4: the single-space input is not treated as
empty, and its result ends with the EOS id. -/
theorem claim_C4_witness :
    IsEmptyUString (WhiteSpaceClean [32]) = false ∧
    (Tokenize Vclip uniAscii [32] 3).getLast? = some (GetEncoding Vclip eosKey) :=
  ⟨rfl, claim_C4.1 Vclip uniAscii [32] 3 rfl⟩

/-- Claim C6: an input that cleans to a whitespace-only string different
from the single-character string consisting of one space yields the empty
result, while the single-space input itself is not treated as empty and
runs through the full pipeline, producing a BOS-led, EOS-terminated
result. -/
theorem claim_C6 :
    (∀ (V : VocabModel) (u : UniTab) (input : List Nat) (maxLength : Int),
      (WhiteSpaceClean input).all IsUnicodeSpace = true →
      WhiteSpaceClean input ≠ [32] →
      Tokenize V u input maxLength = []) ∧
    (∀ (V : VocabModel) (u : UniTab) (maxLength : Int),
      ∃ mid, Tokenize V u [32] maxLength =
        GetEncoding V bosKey :: mid ++ [GetEncoding V eosKey]) := by
  constructor
  · intro V u input maxLength hall hne
    have hempty : IsEmptyUString (WhiteSpaceClean input) = true := by
      rw [IsEmptyUString, if_neg hne]
      exact hall
    simp only [Tokenize]
    rw [hempty]
    simp
  · intro V u maxLength
    have h1 : WhiteSpaceClean [32] = [32] := rfl
    have hempty : IsEmptyUString (WhiteSpaceClean [32]) = false := rfl
    simp only [Tokenize]
    rw [hempty]
    simp only [Bool.false_eq_true, if_false, h1]
    obtain ⟨ext, hext⟩ := processSegments_extend V u maxLength
      (SplitBySpecialTokens V.specialTokens (List.map u.lower [32]))
      [GetEncoding V bosKey]
    refine ⟨ext, ?_⟩
    rw [hext]
    simp

/-- Witness for C6: a tab followed by a space cleans to a whitespace-only
string different from a single space, and tokenizes to the empty
result. -/
theorem claim_C6_witness :
    (WhiteSpaceClean [9, 32]).all IsUnicodeSpace = true ∧
    WhiteSpaceClean [9, 32] ≠ [32] ∧
    Tokenize Vclip uniAscii [9, 32] 7 = [] :=
  ⟨rfl, by decide, claim_C6.1 Vclip uniAscii [9, 32] 7 rfl (by decide)⟩

/-! ### Lemmas about the merges-parsing loop -/

/-- The first space of `w1 ++ " " ++ w2` is at position `w1.length` when
`w1` contains no space. -/
theorem findSpace_append (w1 w2 : List Nat) (h : 32 ∉ w1) :
    findSpace (w1 ++ 32 :: w2) = some w1.length := by
  induction w1 with
  | nil => rfl
  | cons c cs ih =>
    have hc : ¬c = 32 := fun hc => h (hc ▸ List.mem_cons_self c cs)
    rw [List.cons_append, findSpace, if_neg hc,
      ih (fun hm => h (List.mem_cons_of_mem c hm))]
    rfl

/-- Dropping past the separator of `w1 ++ c :: w2` leaves `w2`. -/
theorem drop_append_cons (w1 w2 : List Nat) (c : Nat) :
    (w1 ++ c :: w2).drop (w1.length + 1) = w2 := by
  induction w1 with
  | nil => rfl
  | cons a t ih =>
    rw [List.cons_append, List.length_cons]
    rw [show t.length + 1 + 1 = (t.length + 1) + 1 from rfl, List.drop_succ_cons]
    exact ih

/-- A merges line with no carriage returns filters to itself. -/
theorem filter_cr_eq_self (w1 w2 : List Nat) (h1 : 13 ∉ w1) (h2 : 13 ∉ w2) :
    (w1 ++ 32 :: w2).filter (fun c => c ≠ 13) = w1 ++ 32 :: w2 := by
  rw [List.filter_eq_self]
  intro a ha
  rcases List.mem_append.1 ha with h | h
  · exact decide_eq_true (fun hc => h1 (hc ▸ h))
  · rcases List.mem_cons.1 h with rfl | h
    · decide
    · exact decide_eq_true (fun hc => h2 (hc ▸ h))

/-- At rank counter zero, a run of blank and comment lines followed by a
further comment line behaves as if the comment line were absent: the
comment skip of `VocabData::Load` is keyed on the rank counter, not on
the line position. -/
theorem loadMergesAux_skip_comment (vocab : List (List Nat × Int))
    (l : List Nat) (rest : List (List Nat))
    (hl : (l.filter (fun c => c ≠ 13)).head? = some 35) :
    ∀ (pre : List (List Nat)) (acc : List ((Int × Int) × BpeNode)),
      (∀ p ∈ pre, p.filter (fun c => c ≠ 13) = [] ∨
        (p.filter (fun c => c ≠ 13)).head? = some 35) →
      loadMergesAux vocab (pre ++ l :: rest) 0 acc =
        loadMergesAux vocab (pre ++ rest) 0 acc := by
  have hlne : l.filter (fun c => c ≠ 13) ≠ [] := by
    intro hnil
    rw [hnil] at hl
    exact Option.noConfusion hl
  intro pre
  induction pre with
  | nil =>
    intro acc _
    rw [List.nil_append, List.nil_append, loadMergesAux, if_neg hlne,
      if_pos ⟨hl, rfl⟩]
  | cons p pre' ih =>
    intro acc hpre
    have hp := hpre p (List.mem_cons_self p pre')
    have hrest : ∀ q ∈ pre', q.filter (fun c => c ≠ 13) = [] ∨
        (q.filter (fun c => c ≠ 13)).head? = some 35 :=
      fun q hq => hpre q (List.mem_cons_of_mem p hq)
    rcases hp with hp | hp
    · rw [List.cons_append, loadMergesAux, if_pos hp,
        List.cons_append, loadMergesAux, if_pos hp]
      exact ih acc hrest
    · have hpne : p.filter (fun c => c ≠ 13) ≠ [] := by
        intro hnil
        rw [hnil] at hp
        exact Option.noConfusion hp
      rw [List.cons_append, loadMergesAux, if_neg hpne, if_pos ⟨hp, rfl⟩,
        List.cons_append, loadMergesAux, if_neg hpne, if_pos ⟨hp, rfl⟩]
      exact ih acc hrest

/-- Counterexample to C2: for the merges line `a b` over a vocabulary
containing `a` and `b` but not `ab`, loading fails with a cannot-find
error instead of assigning a fresh id to `ab`. -/
theorem claim_C2_counterexample :
    loadMerges Vab [[97, 32, 98]] =
      Except.error (MergesError.cannotFindWord [97, 98]) := rfl

/-- Claim C2, amended: when parsing a merges line into the words `w1`
and `w2`, loading looks up the ids of `w1`, `w2` and `w1 ++ w2`; if any
of the three is absent from the vocabulary, loading fails with a
cannot-find-word error — no fresh id is ever assigned. -/
theorem claim_C2 (vocab : List (List Nat × Int)) (w1 w2 : List Nat)
    (rest : List (List Nat)) (index : Nat) (acc : List ((Int × Int) × BpeNode))
    (hcr1 : 13 ∉ w1) (hcr2 : 13 ∉ w2) (hsp : 32 ∉ w1)
    (hcmt : ¬((w1 ++ 32 :: w2).head? = some 35 ∧ index = 0))
    (habs : vocabLookup vocab w1 = none ∨ vocabLookup vocab w2 = none ∨
      vocabLookup vocab (w1 ++ w2) = none) :
    ∃ e, loadMergesAux vocab ((w1 ++ 32 :: w2) :: rest) index acc =
      Except.error (MergesError.cannotFindWord e) := by
  have hfil := filter_cr_eq_self w1 w2 hcr1 hcr2
  have hne : w1 ++ 32 :: w2 ≠ [] := by cases w1 <;> simp
  have hfs := findSpace_append w1 w2 hsp
  have htake : (w1 ++ 32 :: w2).take w1.length = w1 := List.take_left w1 (32 :: w2)
  have hdrop : (w1 ++ 32 :: w2).drop (w1.length + 1) = w2 := drop_append_cons w1 w2 32
  rw [loadMergesAux, hfil, if_neg hne, if_neg hcmt, hfs]
  cases hv1 : vocabLookup vocab w1 with
  | none =>
    refine ⟨w1, ?_⟩
    simp only [htake, hdrop, GetVocabIndex, hv1]
  | some i1 =>
    cases hv2 : vocabLookup vocab w2 with
    | none =>
      refine ⟨w2, ?_⟩
      simp only [htake, hdrop, GetVocabIndex, hv1, hv2]
    | some i2 =>
      have hv3 : vocabLookup vocab (w1 ++ w2) = none := by
        rcases habs with h | h | h
        · rw [hv1] at h
          exact Option.noConfusion h
        · rw [hv2] at h
          exact Option.noConfusion h
        · exact h
      refine ⟨w1 ++ w2, ?_⟩
      simp only [htake, hdrop, GetVocabIndex, hv1, hv2, hv3]

/-- Witness for the amended C2 at the line `a b` over the vocabulary
containing only `a` and `b`. -/
theorem claim_C2_witness :
    (13 ∉ ([97] : List Nat)) ∧ (13 ∉ ([98] : List Nat)) ∧
    (32 ∉ ([97] : List Nat)) ∧
    ¬((([97] ++ 32 :: [98] : List Nat)).head? = some 35 ∧ (0 : Nat) = 0) ∧
    vocabLookup Vab ([97] ++ [98]) = none ∧
    (∃ e, loadMergesAux Vab [[97] ++ 32 :: [98]] 0 [] =
      Except.error (MergesError.cannotFindWord e)) :=
  ⟨by decide, by decide, by decide, by decide, rfl,
   claim_C2 Vab [97] [98] [] 0 [] (by decide) (by decide) (by decide) (by decide)
     (Or.inr (Or.inr rfl))⟩

/-- Counterexample to C7: the lines `# e f` and `# c d` over a
vocabulary containing all the words of `# c d` load to an empty merge
table — the second comment line, although at a later position than the
first, is also skipped rather than parsed as an ordinary merge rule,
because no merge rule has been processed yet. -/
theorem claim_C7_counterexample :
    loadMerges Vhash [[35, 32, 101, 32, 102], [35, 32, 99, 32, 100]] =
      Except.ok [] := rfl

/-- Claim C7, amended: a line starting with the comment character is
skipped exactly while the rank counter is still zero, i.e. while only
blank lines and other comment lines precede it; once a merge rule has
been processed, a later comment-starting line is parsed as an ordinary
merge rule, as the lines `a b` then `# c d` show. -/
theorem claim_C7 :
    (∀ (vocab : List (List Nat × Int)) (l : List Nat)
       (rest pre : List (List Nat)) (acc : List ((Int × Int) × BpeNode)),
      (l.filter (fun c => c ≠ 13)).head? = some 35 →
      (∀ p ∈ pre, p.filter (fun c => c ≠ 13) = [] ∨
        (p.filter (fun c => c ≠ 13)).head? = some 35) →
      loadMergesAux vocab (pre ++ l :: rest) 0 acc =
        loadMergesAux vocab (pre ++ rest) 0 acc) ∧
    loadMerges Vhash [[97, 32, 98], [35, 32, 99, 32, 100]] =
      Except.ok [((0, 1), ⟨2, 0, 2⟩), ((3, 4), ⟨5, 1, 4⟩)] :=
  ⟨fun vocab l rest pre acc hl hpre =>
    loadMergesAux_skip_comment vocab l rest hl pre acc hpre, rfl⟩

/-- Witness for the amended C7: a leading comment line followed by a
second comment line, which is skipped as well. -/
theorem claim_C7_witness :
    ((([35, 32, 99, 32, 100] : List Nat).filter (fun c => c ≠ 13)).head? = some 35) ∧
    (∀ p ∈ [[35, 32, 120]], List.filter (fun c => c ≠ 13) p = [] ∨
      (List.filter (fun c => c ≠ 13) p).head? = some 35) ∧
    loadMergesAux Vhash ([[35, 32, 120]] ++ [35, 32, 99, 32, 100] :: []) 0 [] =
      loadMergesAux Vhash ([[35, 32, 120]] ++ []) 0 [] :=
  ⟨by decide, by decide,
   claim_C7.1 Vhash [35, 32, 99, 32, 100] [] [[35, 32, 120]] [] (by decide) (by decide)⟩
